import Mathlib

/-!
Verification development for the document-chatbot repository
(document_processor.py, vector_store.py, chat_handler.py).

Text is modelled as `List Char` (ASCII fragment: Python's `\w` and `\s`
character classes are modelled by their ASCII parts, which covers every
input considered here).  Python regular-expression substitutions are
modelled by executable list transformations, and floating-point vectors
by rational vectors (`List ℚ`): FAISS's `IndexFlatL2` exact search is
modelled as sorting all stored vectors by squared L2 distance.
-/

namespace DocChatbot

/-- ASCII part of Python's `\s` class (also used by `str.strip`). -/
def isPySpace (c : Char) : Bool :=
  c = ' ' || c = '\t' || c = '\n' || c = '\r' || c = '\x0b' || c = '\x0c'

/-- ASCII part of Python's `\w` class: letters, digits, underscore. -/
def isWordChar (c : Char) : Bool :=
  c.isAlphanum || c = '_'

/-- The allow-list of `re.sub(r'[^\w\s\.,!?;:()\-]', '', text)` in
`DocumentProcessor.clean_text`: word characters, whitespace and the
punctuation `.,!?;:()-`. -/
def isAllowedChar (c : Char) : Bool :=
  isWordChar c || isPySpace c ||
    c = '.' || c = ',' || c = '!' || c = '?' || c = ';' || c = ':' ||
    c = '(' || c = ')' || c = '-'

/-- Worker for `collapseRuns`: `inRun` records whether the previous
character belonged to a collapsed run. -/
def collapseRunsAux (p : Char → Bool) (r : Char) : Bool → List Char → List Char
  | _, [] => []
  | inRun, c :: rest =>
    if p c then
      if inRun then collapseRunsAux p r true rest
      else r :: collapseRunsAux p r true rest
    else c :: collapseRunsAux p r false rest

/-- `re.sub(r'P+', r, text)` for a character class `P`: every maximal run
of characters satisfying `p` is replaced by the single character `r`. -/
def collapseRuns (p : Char → Bool) (r : Char) (l : List Char) : List Char :=
  collapseRunsAux p r false l

/-- Python `str.strip()`: drop leading and trailing whitespace. -/
def pstrip (l : List Char) : List Char :=
  ((l.dropWhile isPySpace).reverse.dropWhile isPySpace).reverse

/-- `DocumentProcessor.clean_text`: collapse newline runs to one newline,
then collapse whitespace runs to one space, then delete characters outside
the allow-list, then strip.  Empty input short-circuits to the empty
string. -/
def clean_text (t : List Char) : List Char :=
  if t.isEmpty then []
  else pstrip ((collapseRuns isPySpace ' '
      (collapseRuns (fun c => c = '\n') '\n' t)).filter isAllowedChar)

/-- Python `text.rfind(ch, s, e)`: the largest index `i` with
`s ≤ i < e` and `text[i] = ch` (`none` plays the role of `-1`). -/
def rfindIn (t : List Char) (ch : Char) (s e : Nat) : Option Nat :=
  (List.range t.length).foldl
    (fun acc i => if s ≤ i ∧ i < e ∧ t.getD i ' ' = ch then some i else acc)
    none

/-- `o > m` where `o` models a Python `rfind` result (`none` = `-1`). -/
def gtOpt (o : Option Nat) (m : Nat) : Bool :=
  match o with
  | some i => m < i
  | none => false

/-- The boundary-adjusted window end of one iteration of
`DocumentProcessor.chunk_text`: start from `start + chunk_size`; if that
is still inside the text, prefer a sentence end (`'.'`), else a paragraph
end (`'\n'`), else a word end (`' '`), each accepted only past the
midpoint `start + chunk_size / 2`. -/
def chunkEnd (t : List Char) (cs start : Nat) : Nat :=
  let e0 := start + cs
  if e0 < t.length then
    let mid := start + cs / 2
    if gtOpt (rfindIn t '.' start e0) mid then (rfindIn t '.' start e0).getD 0 + 1
    else if gtOpt (rfindIn t '\n' start e0) mid then (rfindIn t '\n' start e0).getD 0 + 1
    else if gtOpt (rfindIn t ' ' start e0) mid then (rfindIn t ' ' start e0).getD 0
    else e0
  else e0

/-- Python slice `t[s:e]` for `0 ≤ s` (the loop keeps `start`
non-negative in the regime `overlap ≤ chunk_size / 2` treated by the
claims). -/
def pySlice (t : List Char) (s e : Nat) : List Char :=
  (t.drop s).take (e - s)

/-- The `(start, end)` window of each iteration of the chunking loop;
`fuel` bounds the number of iterations (the loop itself has none, see the
fuel-stability theorem). -/
def chunkSpans (t : List Char) (cs ov : Nat) : Nat → Nat → List (Nat × Nat)
  | 0, _ => []
  | fuel + 1, start =>
    if start < t.length then
      (start, chunkEnd t cs start) ::
        chunkSpans t cs ov fuel (chunkEnd t cs start - ov)
    else []

/-- The `while start < len(text)` loop of `DocumentProcessor.chunk_text`:
slice the window, strip it, append it if non-empty, and advance `start`
to `end - overlap`. -/
def chunkLoop (t : List Char) (cs ov : Nat) : Nat → Nat → List (List Char)
  | 0, _ => []
  | fuel + 1, start =>
    if start < t.length then
      let e := chunkEnd t cs start
      let chunk := pstrip (pySlice t start e)
      let rest := chunkLoop t cs ov fuel (e - ov)
      if chunk.isEmpty then rest else chunk :: rest
    else []

/-- `DocumentProcessor.chunk_text(text, chunk_size, overlap)`: empty input
gives no chunks; otherwise the text is cleaned, returned whole if it fits
in `chunk_size`, and otherwise split by the overlapping-window loop. -/
def chunk_text (t : List Char) (cs ov : Nat) : List (List Char) :=
  if t.isEmpty then []
  else
    let txt := clean_text t
    if txt.length ≤ cs then [txt]
    else chunkLoop txt cs ov (txt.length + 1) 0

/-- A value of a Python metadata dict: the code stores numbers
(`chunk_id`) and strings (`source`). -/
inductive MetaVal where
  | num (n : Nat)
  | str (s : List Char)
deriving DecidableEq

/-- A metadata dict, as an association list. -/
abbrev Meta := List (List Char × MetaVal)

/-- Python `dict.get(k)`. -/
def metaGet (m : Meta) (k : List Char) : Option MetaVal :=
  (m.find? (fun e => decide (e.1 = k))).map (fun e => e.2)

/-- Python truthiness of a metadata value. -/
def truthy (v : MetaVal) : Bool :=
  match v with
  | .num n => decide (n ≠ 0)
  | .str s => !s.isEmpty

/-- The state of `VectorStore`: the FAISS `IndexFlatL2` contents
(`index`, so `ntotal = index.length`) and the parallel `texts` and
`metadata` arrays. -/
structure VectorStore where
  dimension : Nat
  index : List (List ℚ)
  texts : List (List Char)
  metadata : List Meta
deriving DecidableEq

/-- `VectorStore.__init__`: dimension 768, empty index and arrays. -/
def initStore : VectorStore := ⟨768, [], [], []⟩

/-- Squared L2 distance, the metric of FAISS `IndexFlatL2`. -/
def sqDist (q v : List ℚ) : ℚ :=
  ((q.zip v).map (fun p => (p.1 - p.2) ^ 2)).sum

/-- Insertion into a distance-ascending list of `(distance, offset)`
pairs. -/
def insertAsc (p : ℚ × Nat) : List (ℚ × Nat) → List (ℚ × Nat)
  | [] => [p]
  | q :: rest => if p.1 ≤ q.1 then p :: q :: rest else q :: insertAsc p rest

/-- Sort `(distance, offset)` pairs by ascending distance (insertion
sort; FAISS leaves the order of ties unspecified, any ascending order is
a faithful model). -/
def sortAsc : List (ℚ × Nat) → List (ℚ × Nat)
  | [] => []
  | p :: rest => insertAsc p (sortAsc rest)

/-- FAISS `index.search(q, k)` on an exact flat L2 index: every stored
vector paired with its distance, sorted by ascending distance, first `k`
kept.  Each returned pair is `(distance, offset)`. -/
def faissSearch (vecs : List (List ℚ)) (q : List ℚ) (k : Nat) : List (ℚ × Nat) :=
  (sortAsc ((vecs.map (sqDist q)).enum.map (fun p => (p.2, p.1)))).take k

/-- One converted search hit: `(text, 1/(1+distance), metadata-or-{})` as
built in the result loop of `VectorStore.search`. -/
def mkResult (texts : List (List Char)) (md : List Meta) (p : ℚ × Nat) :
    List Char × ℚ × Meta :=
  (texts.getD p.2 [], 1 / (1 + p.1), if p.2 < md.length then md.getD p.2 [] else [])

/-- The result-conversion loop of `VectorStore.search`: keep a hit only
when its offset indexes into `texts` (`0 <= idx < len(self.texts)`). -/
def searchResults (texts : List (List Char)) (md : List Meta) :
    List (ℚ × Nat) → List (List Char × ℚ × Meta)
  | [] => []
  | p :: rest =>
    if p.2 < texts.length then mkResult texts md p :: searchResults texts md rest
    else searchResults texts md rest

/-- `VectorStore.search(query, k)`, with the externally produced query
embedding passed in as `q`: empty index short-circuits to `[]`, otherwise
the index is searched for `min(k, ntotal)` nearest vectors and the hits
are converted. -/
def search (st : VectorStore) (q : List ℚ) (k : Nat) :
    List (List Char × ℚ × Meta) :=
  if st.index.length = 0 then []
  else searchResults st.texts st.metadata
    (faissSearch st.index q (min k st.index.length))

/-- The per-text embedding loop of `VectorStore._get_embeddings`, with
the external service as parameter `embed` (`none` = the call raises):
any failure aborts the whole batch. -/
def allEmbed (embed : List Char → Option (List ℚ)) :
    List (List Char) → Option (List (List ℚ))
  | [] => some []
  | t :: ts =>
    match embed t, allEmbed embed ts with
    | some e, some es => some (e :: es)
    | _, _ => none

/-- `VectorStore._get_embeddings`: on any exception the whole batch is
discarded and the empty array returned. -/
def get_embeddings (embed : List Char → Option (List ℚ))
    (texts : List (List Char)) : List (List ℚ) :=
  (allEmbed embed texts).getD []

/-- `numpy` `.size` of a list of embedding rows: total element count. -/
def npSize (es : List (List ℚ)) : Nat :=
  (es.map List.length).sum

def chunkIdKey : List Char := "chunk_id".toList

/-- The auto-generated metadata of `add_documents` when none is supplied:
`{"chunk_id": i + len(self.metadata)}` for each new text. -/
def autoMeta (base n : Nat) : List Meta :=
  (List.range n).map (fun i => [(chunkIdKey, MetaVal.num (i + base))])

/-- `VectorStore.add_documents(texts, metadata)`: fail on an empty text
list or when embedding produced a size-0 array, else append embeddings to
the index and texts/metadata to the parallel arrays (Python's
`if metadata:` treats an empty list like `None`). -/
def add_documents (st : VectorStore) (embed : List Char → Option (List ℚ))
    (texts : List (List Char)) (mdArg : Option (List Meta)) :
    Bool × VectorStore :=
  if texts.isEmpty then (false, st)
  else
    let embeddings := get_embeddings embed texts
    if npSize embeddings = 0 then (false, st)
    else
      let newMeta :=
        match mdArg with
        | some m => if m.isEmpty then autoMeta st.metadata.length texts.length else m
        | none => autoMeta st.metadata.length texts.length
      (true, { st with index := st.index ++ embeddings,
                       texts := st.texts ++ texts,
                       metadata := st.metadata ++ newMeta })

/-- `VectorStore.clear`: fresh index of the same dimension, empty
arrays. -/
def clear (st : VectorStore) : VectorStore :=
  { st with index := [], texts := [], metadata := [] }

/-- The dict returned by `VectorStore.get_stats`. -/
structure Stats where
  total_chunks : Nat
  index_size : Nat
  dimension : Nat
deriving DecidableEq

/-- `VectorStore.get_stats`. -/
def get_stats (st : VectorStore) : Stats :=
  ⟨st.texts.length, st.index.length, st.dimension⟩

/-- The serialized bundle written to `{path}.pkl`. -/
structure PklData where
  texts : List (List Char)
  metadata : List Meta
  dimension : Nat
deriving DecidableEq

/-- The file system seen by `save`/`load`: the `.faiss` files (serialized
index) and the `.pkl` files (serialized bundle), each keyed by the path
stem.  Serialization is modelled as faithful storage of the values. -/
structure FileSystem where
  faissFiles : List (List Char × List (List ℚ))
  pklFiles : List (List Char × PklData)

/-- Lookup of a stored file; a later `save` to the same path shadows an
earlier one. -/
def fsLookup {α : Type} (files : List (List Char × α)) (p : List Char) :
    Option α :=
  (files.find? (fun e => decide (e.1 = p))).map (fun e => e.2)

/-- `VectorStore.save(filepath)`: write the index to `{path}.faiss` and
the texts/metadata/dimension bundle to `{path}.pkl`. -/
def save (st : VectorStore) (fs : FileSystem) (path : List Char) :
    Bool × FileSystem :=
  (true, { faissFiles := (path, st.index) :: fs.faissFiles,
           pklFiles := (path, ⟨st.texts, st.metadata, st.dimension⟩) :: fs.pklFiles })

/-- `VectorStore.load(filepath)`: if either co-located file is missing
return `false` leaving the store untouched, else replace index, texts,
metadata and dimension from the files. -/
def load (st : VectorStore) (fs : FileSystem) (path : List Char) :
    Bool × VectorStore :=
  match fsLookup fs.faissFiles path, fsLookup fs.pklFiles path with
  | some idx, some pkl =>
    (true, { dimension := pkl.dimension, index := idx,
             texts := pkl.texts, metadata := pkl.metadata })
  | _, _ => (false, st)

def sourceKey : List Char := "source".toList

/-- Rendering of a metadata value inside an f-string. -/
def renderVal (v : MetaVal) : List Char :=
  match v with
  | .num n => (toString n).toList
  | .str s => s

/-- The `chunk_info` line of `ChatHandler._prepare_context` for the
`i`-th excerpt.  Python's float formatting `{score:.2f}` is abstracted as
the parameter `fmt`. -/
def chunkInfoLine (fmt : ℚ → List Char) (i : Nat) (score : ℚ) (md : Meta) :
    List Char :=
  let base := "**Document Excerpt ".toList ++ (toString (i + 1)).toList ++
    "** (Relevance: ".toList ++ fmt score ++ ")".toList
  match metaGet md sourceKey with
  | some v => if truthy v then base ++ " - Source: ".toList ++ renderVal v else base
  | none => base

/-- `ChatHandler._prepare_context`: empty chunk list gives the empty
context; otherwise the first three chunks (`context_chunks[:3]`) are each
formatted as a labelled excerpt and joined by blank lines. -/
def prepare_context (fmt : ℚ → List Char)
    (chunks : List (List Char × ℚ × Meta)) : List Char :=
  if chunks.isEmpty then []
  else List.intercalate "\n\n".toList
    ((chunks.take 3).enum.map (fun p =>
      chunkInfoLine fmt p.1 p.2.2.1 p.2.2.2 ++ "\n".toList ++ p.2.1))

def ctxPromptPre : List Char :=
  "You are an expert document analysis assistant. Your task is to answer questions based on the provided document excerpts.\n\n**DOCUMENT CONTEXT:**\n".toList

def ctxPromptMid : List Char := "\n\n**USER QUESTION:** ".toList

def ctxPromptPost : List Char :=
  "\n\n**INSTRUCTIONS:**\n1. Answer based primarily on the provided document context\n2. Be specific and cite relevant information from the excerpts\n3. If the context doesn\x27t fully address the question, clearly state what information is missing\n4. Use a clear, professional tone\n5. Provide direct quotes when they support your answer\n6. If you need to make inferences, clearly indicate this\n\n**RESPONSE:**".toList

def noCtxPromptPre : List Char :=
  "You are a helpful assistant. The user has asked a question about documents, but no relevant document context was found in the uploaded files.\n\n**USER QUESTION:** ".toList

def noCtxPromptPost : List Char :=
  "\n\nPlease provide a helpful response while clearly explaining that you don\x27t have specific document context to reference. You may provide general information about the topic if appropriate, but emphasize the limitation.\n\n**RESPONSE:**".toList

/-- The document-grounded prompt of `ChatHandler._create_prompt`. -/
def ctxPrompt (q ctx : List Char) : List Char :=
  ctxPromptPre ++ ctx ++ ctxPromptMid ++ q ++ ctxPromptPost

/-- The no-context prompt of `ChatHandler._create_prompt`. -/
def noCtxPrompt (q : List Char) : List Char :=
  noCtxPromptPre ++ q ++ noCtxPromptPost

/-- `ChatHandler._create_prompt(query, context)`: the no-context prompt
exactly when the prepared context string is empty. -/
def create_prompt (q ctx : List Char) : List Char :=
  if ctx.isEmpty then noCtxPrompt q else ctxPrompt q ctx

/-! ## Helper lemmas -/

theorem allEmbed_length {embed : List Char → Option (List ℚ)} :
    ∀ {texts : List (List Char)} {es : List (List ℚ)},
      allEmbed embed texts = some es → es.length = texts.length := by
  intro texts
  induction texts with
  | nil => intro es h; simp [allEmbed] at h; simp [← h]
  | cons t ts ih =>
    intro es h
    simp only [allEmbed] at h
    cases he : embed t with
    | none => rw [he] at h; simp at h
    | some e =>
      rw [he] at h
      cases hr : allEmbed embed ts with
      | none => rw [hr] at h; simp at h
      | some es' =>
        rw [hr] at h
        simp at h
        subst h
        simp [ih hr]

theorem allEmbed_none_of_mem {embed : List Char → Option (List ℚ)}
    {texts : List (List Char)} {t : List Char} (ht : t ∈ texts)
    (he : embed t = none) : allEmbed embed texts = none := by
  induction texts with
  | nil => cases ht
  | cons u us ih =>
    rcases List.mem_cons.mp ht with h | h
    · subst h; simp [allEmbed, he]
    · simp only [allEmbed]
      cases embed u with
      | none => rfl
      | some e => rw [ih h]

/-- The invariant of `VectorStore`: the index and the two parallel arrays
have equal length. -/
def wf (st : VectorStore) : Prop :=
  st.index.length = st.texts.length ∧ st.texts.length = st.metadata.length

/-! ## Claim theorems (vector store basics) -/

/-- Claim C6: saving a store and loading the saved artifact into a fresh
store reproduces identical stats and identical ordered texts and metadata
arrays (with serialization modelled as faithful storage). -/
theorem save_load_roundtrip (st fresh : VectorStore) (fs : FileSystem)
    (path : List Char) :
    (save st fs path).1 = true
    ∧ (load fresh (save st fs path).2 path).1 = true
    ∧ get_stats (load fresh (save st fs path).2 path).2 = get_stats st
    ∧ (load fresh (save st fs path).2 path).2.texts = st.texts
    ∧ (load fresh (save st fs path).2 path).2.metadata = st.metadata := by
  simp [save, load, fsLookup, List.find?_cons, get_stats]

/-- Claim C7: a raised embedding call empties the whole batch and
`add_documents` reports failure leaving the store untouched; likewise for
an empty text list and for a size-zero embedding array. -/
theorem add_documents_abort (st : VectorStore)
    (embed : List Char → Option (List ℚ)) (texts : List (List Char))
    (mdArg : Option (List Meta)) :
    ((∃ t ∈ texts, embed t = none) →
        get_embeddings embed texts = []
        ∧ add_documents st embed texts mdArg = (false, st))
    ∧ add_documents st embed [] mdArg = (false, st)
    ∧ (npSize (get_embeddings embed texts) = 0 →
        add_documents st embed texts mdArg = (false, st)) := by
  refine ⟨?_, by simp [add_documents], ?_⟩
  · rintro ⟨t, ht, he⟩
    have hnone : allEmbed embed texts = none := allEmbed_none_of_mem ht he
    have hg : get_embeddings embed texts = [] := by
      simp [get_embeddings, hnone]
    refine ⟨hg, ?_⟩
    unfold add_documents
    cases hte : texts.isEmpty
    · simp [hte, hg, npSize]
    · simp [hte]
  · intro h0
    unfold add_documents
    cases hte : texts.isEmpty
    · simp [hte, h0]
    · simp [hte]

/-- Claim C5: `add_documents` (metadata omitted or matching the text
count), `clear` and the initial state all preserve the equal-length
invariant of the index and the parallel arrays, and under it `get_stats`
reports `total_chunks = index_size`. -/
theorem store_invariant (st : VectorStore)
    (embed : List Char → Option (List ℚ)) (texts : List (List Char))
    (mdArg : Option (List Meta)) (h : wf st)
    (hm : mdArg = none ∨ ∃ m, mdArg = some m ∧ m.length = texts.length) :
    wf (add_documents st embed texts mdArg).2
    ∧ wf (clear st) ∧ wf initStore
    ∧ (get_stats st).total_chunks = (get_stats st).index_size := by
  refine ⟨?_, by simp [wf, clear], by simp [wf, initStore], h.1.symm⟩
  by_cases hte : texts.isEmpty = true
  · simp [add_documents, hte]
    exact h
  · by_cases hs : npSize (get_embeddings embed texts) = 0
    · simp [add_documents, hte, hs]
      exact h
    · have hsome : ∃ es, allEmbed embed texts = some es := by
        cases ha : allEmbed embed texts with
        | none => exact absurd (by simp [get_embeddings, ha, npSize]) hs
        | some es => exact ⟨es, rfl⟩
      obtain ⟨es, hes⟩ := hsome
      have hg : get_embeddings embed texts = es := by simp [get_embeddings, hes]
      have hs' : ¬ npSize es = 0 := hg ▸ hs
      have hlen : es.length = texts.length := allEmbed_length hes
      have hauto : ∀ b, (autoMeta b texts.length).length = texts.length := by
        intro b; simp [autoMeta]
      rcases hm with hmn | ⟨m, hmeq, hml⟩
      · subst hmn
        simp [add_documents, hte, hg, hs', wf, hlen, hauto, h.1, h.2]
      · subst hmeq
        have hmne : m.isEmpty = false := by
          cases m with
          | nil =>
            exfalso
            rw [List.length_nil] at hml
            have htn : texts = [] := List.length_eq_zero.mp hml.symm
            subst htn
            simp at hte
          | cons a l => rfl
        simp [add_documents, hte, hg, hs', wf, hlen, hmne, hml, h.1, h.2]

/-- Claim C5 witness. -/
theorem store_invariant_witness :
    wf (add_documents initStore (fun _ => some [1]) [['a']] none).2
    ∧ wf (clear initStore) ∧ wf initStore
    ∧ (get_stats initStore).total_chunks = (get_stats initStore).index_size :=
  store_invariant initStore (fun _ => some [1]) [['a']] none
    ⟨rfl, rfl⟩ (Or.inl rfl)

/-- Claim C7 witness. -/
theorem add_documents_abort_witness :
    (get_embeddings (fun _ => none) [['a']] = []
      ∧ add_documents initStore (fun _ => none) [['a']] none = (false, initStore))
    ∧ add_documents initStore (fun _ => none) [] none = (false, initStore)
    ∧ add_documents initStore (fun _ => none) [['a']] none = (false, initStore) := by
  have h := add_documents_abort initStore (fun _ => none) [['a']] none
  exact ⟨h.1 ⟨['a'], by decide, rfl⟩, h.2.1, h.2.2 (by decide)⟩

/-! ## Claim theorems (chunking basics) -/

/-- Claim C4 (corrected part): the literally empty input yields no chunk
at all, not one chunk equal to the (empty) normalized input. -/
theorem chunk_empty_input_cex :
    chunk_text [] 1000 200 ≠ [clean_text []] := by decide

/-- Claim C4 (amended): every non-empty input whose normalized form fits
in `chunk_size` (including inputs normalizing to the empty string) yields
exactly one chunk, the normalized input. -/
theorem chunk_short_single (t : List Char) (cs ov : Nat) (ht : t ≠ [])
    (hlen : (clean_text t).length ≤ cs) :
    chunk_text t cs ov = [clean_text t] := by
  unfold chunk_text
  have hte : t.isEmpty = false := by
    cases t
    · exact absurd rfl ht
    · rfl
  simp [hte, hlen]

/-- Claim C4 witness: a one-character input is returned as the single
normalized chunk. -/
theorem chunk_short_single_witness :
    chunk_text ['a'] 1000 200 = [clean_text ['a']] :=
  chunk_short_single ['a'] 1000 200 (by decide) (by decide)

/-- Claim C3: evaluating `clean_text` at the failing input `"a\nb"`: the
newline does not survive — the whitespace collapse (which treats `'\n'`
as whitespace) runs after the newline collapse and replaces it by a
space. -/
theorem clean_text_kills_newline :
    clean_text ['a', '\n', 'b'] = ['a', ' ', 'b']
    ∧ '\n' ∉ clean_text ['a', '\n', 'b'] := by decide

/-! ## Prompt composition (C9) -/

theorem intercalate_head (sep x : List Char) (xs : List (List Char)) :
    ∃ r, List.intercalate sep (x :: xs) = x ++ r := by
  cases xs with
  | nil => exact ⟨[], by simp [List.intercalate, List.intersperse]⟩
  | cons y ys =>
    refine ⟨sep ++ List.intercalate sep (y :: ys), ?_⟩
    simp [List.intercalate, List.intersperse]

theorem intercalate_ne_nil (sep x : List Char) (xs : List (List Char))
    (hx : x ≠ []) : List.intercalate sep (x :: xs) ≠ [] := by
  obtain ⟨r, hr⟩ := intercalate_head sep x xs
  rw [hr]
  simp [hx]

theorem chunkInfoLine_ne_nil (fmt : ℚ → List Char) (i : Nat) (score : ℚ)
    (md : Meta) : chunkInfoLine fmt i score md ≠ [] := by
  have hb : 0 < ("**Document Excerpt ".toList).length := by decide
  unfold chunkInfoLine
  cases metaGet md sourceKey with
  | none =>
    intro h
    have hl := congrArg List.length h
    simp [List.length_append] at hl
  | some v =>
    dsimp only
    by_cases htv : truthy v = true
    · rw [if_pos htv]
      intro h
      have hl := congrArg List.length h
      simp [List.length_append] at hl
    · rw [if_neg htv]
      intro h
      have hl := congrArg List.length h
      simp [List.length_append] at hl

theorem prepare_context_ne_nil (fmt : ℚ → List Char)
    (c : List Char × ℚ × Meta) (rest : List (List Char × ℚ × Meta)) :
    prepare_context fmt (c :: rest) ≠ [] := by
  unfold prepare_context
  rw [if_neg (by simp)]
  refine intercalate_ne_nil _ _ _ ?_
  intro h
  exact chunkInfoLine_ne_nil fmt _ _ _
    (List.append_eq_nil.mp (List.append_eq_nil.mp h).1).1

/-- Claim C9: the composed prompt incorporates at most the first three
context chunks (`prepare_context` only reads `chunks.take 3`); an empty
context list yields the alternative no-context prompt, and a non-empty
one yields the document-grounded prompt. -/
theorem prompt_uses_top3 (fmt : ℚ → List Char) (q : List Char)
    (chunks : List (List Char × ℚ × Meta)) :
    prepare_context fmt chunks = prepare_context fmt (chunks.take 3)
    ∧ create_prompt q (prepare_context fmt []) = noCtxPrompt q
    ∧ (chunks ≠ [] →
        create_prompt q (prepare_context fmt chunks)
          = ctxPrompt q (prepare_context fmt chunks)) := by
  refine ⟨?_, by simp [prepare_context, create_prompt], ?_⟩
  · cases chunks with
    | nil => rfl
    | cons c rest => simp [prepare_context, List.take_take]
  · intro hne
    obtain ⟨c, rest, rfl⟩ := List.exists_cons_of_ne_nil hne
    cases hp : prepare_context fmt (c :: rest) with
    | nil => exact absurd hp (prepare_context_ne_nil fmt c rest)
    | cons a l => simp [create_prompt]

/-- Claim C9 witness. -/
theorem prompt_uses_top3_witness :
    prepare_context (fun _ => []) [(['t'], 1, [])]
        = prepare_context (fun _ => []) ([(['t'], 1, [])].take 3)
    ∧ create_prompt ['q'] (prepare_context (fun _ => []) []) = noCtxPrompt ['q']
    ∧ create_prompt ['q'] (prepare_context (fun _ => []) [(['t'], 1, [])])
        = ctxPrompt ['q'] (prepare_context (fun _ => []) [(['t'], 1, [])]) := by
  have h := prompt_uses_top3 (fun _ => []) ['q'] [(['t'], 1, [])]
  exact ⟨h.1, h.2.1, h.2.2 (by simp)⟩

/-! ## Offset robustness of search (C10) -/

theorem searchResults_eq_filter_map (texts : List (List Char))
    (md : List Meta) (l : List (ℚ × Nat)) :
    searchResults texts md l
      = (l.filter (fun p => decide (p.2 < texts.length))).map
          (mkResult texts md) := by
  induction l with
  | nil => rfl
  | cons p rest ih =>
    by_cases hp : p.2 < texts.length
    · simp [searchResults, hp, List.filter_cons, ih]
    · simp [searchResults, hp, List.filter_cons, ih]

/-- A store whose parallel arrays are out of sync with the index: two
vectors, one text, no metadata. -/
def outOfSyncStore : VectorStore := ⟨768, [[0, 0], [3, 4]], [['a']], []⟩

/-- Claim C10: the result loop of `search` silently drops every offset
outside the bounds of the texts array (so an out-of-sync store can
return fewer than `min(k, N)` hits, as `outOfSyncStore` shows) and an
offset past the end of the metadata array yields the empty metadata
dict instead of an indexing error. -/
theorem search_offset_safety (st : VectorStore) (q : List ℚ) (k : Nat) :
    search st q k
      = ((faissSearch st.index q (min k st.index.length)).filter
          (fun p => decide (p.2 < st.texts.length))).map
            (mkResult st.texts st.metadata)
    ∧ (∀ p : ℚ × Nat, st.texts.length ≤ p.2 →
        searchResults st.texts st.metadata [p] = [])
    ∧ (∀ p : ℚ × Nat, p.2 < st.texts.length → st.metadata.length ≤ p.2 →
        (mkResult st.texts st.metadata p).2.2 = [])
    ∧ (search outOfSyncStore [1, 1] 2).length
        < min 2 outOfSyncStore.index.length := by
  refine ⟨?_, ?_, ?_, by
    norm_num [search, searchResults, faissSearch, sortAsc, insertAsc, sqDist,
      mkResult, outOfSyncStore]⟩
  · unfold search
    by_cases h0 : st.index.length = 0
    · have hnil : st.index = [] := List.length_eq_zero.mp h0
      simp [h0, hnil, faissSearch]
    · simp [h0, searchResults_eq_filter_map]
  · intro p hp
    simp [searchResults, Nat.not_lt.mpr hp]
  · intro p hp hm
    simp [mkResult, Nat.not_lt.mpr hm]

/-- Claim C10 witness. -/
theorem search_offset_safety_witness :
    searchResults outOfSyncStore.texts outOfSyncStore.metadata [(2, 5)] = []
    ∧ (mkResult outOfSyncStore.texts outOfSyncStore.metadata (2, 0)).2.2 = [] := by
  have h := search_offset_safety outOfSyncStore [1, 1] 2
  exact ⟨h.2.1 (2, 5) (by decide), h.2.2.1 (2, 0) (by decide) (by decide)⟩

/-! ## Ranked retrieval (C1) -/

theorem sqDist_nonneg (q v : List ℚ) : 0 ≤ sqDist q v := by
  unfold sqDist
  apply List.sum_nonneg
  intro x hx
  obtain ⟨p, hp, rfl⟩ := List.mem_map.mp hx
  exact sq_nonneg _

theorem insertAsc_mem {p x : ℚ × Nat} {l : List (ℚ × Nat)} :
    x ∈ insertAsc p l ↔ x = p ∨ x ∈ l := by
  induction l with
  | nil => simp [insertAsc]
  | cons q rest ih =>
    by_cases h : p.1 ≤ q.1
    · simp [insertAsc, h]
    · simp [insertAsc, h, ih]
      tauto

theorem sortAsc_mem {x : ℚ × Nat} {l : List (ℚ × Nat)} :
    x ∈ sortAsc l ↔ x ∈ l := by
  induction l with
  | nil => simp [sortAsc]
  | cons p rest ih => simp [sortAsc, insertAsc_mem, ih]

theorem insertAsc_length (p : ℚ × Nat) (l : List (ℚ × Nat)) :
    (insertAsc p l).length = l.length + 1 := by
  induction l with
  | nil => simp [insertAsc]
  | cons q rest ih => by_cases h : p.1 ≤ q.1 <;> simp [insertAsc, h, ih]

theorem sortAsc_length (l : List (ℚ × Nat)) :
    (sortAsc l).length = l.length := by
  induction l with
  | nil => simp [sortAsc]
  | cons p rest ih => simp [sortAsc, insertAsc_length, ih]

theorem insertAsc_sorted (p : ℚ × Nat) {l : List (ℚ × Nat)}
    (h : l.Pairwise (fun a b => a.1 ≤ b.1)) :
    (insertAsc p l).Pairwise (fun a b => a.1 ≤ b.1) := by
  induction l with
  | nil => simp [insertAsc]
  | cons q rest ih =>
    rw [List.pairwise_cons] at h
    by_cases hle : p.1 ≤ q.1
    · simp only [insertAsc, if_pos hle]
      rw [List.pairwise_cons]
      constructor
      · intro x hx
        rcases List.mem_cons.mp hx with rfl | hx'
        · exact hle
        · exact le_trans hle (h.1 x hx')
      · exact List.pairwise_cons.mpr h
    · simp only [insertAsc, if_neg hle]
      rw [List.pairwise_cons]
      constructor
      · intro x hx
        rcases insertAsc_mem.mp hx with rfl | hx'
        · exact le_of_not_le hle
        · exact h.1 x hx'
      · exact ih h.2

theorem sortAsc_sorted (l : List (ℚ × Nat)) :
    (sortAsc l).Pairwise (fun a b => a.1 ≤ b.1) := by
  induction l with
  | nil => simp [sortAsc]
  | cons p rest ih => exact insertAsc_sorted p ih

theorem faissSearch_length (vecs : List (List ℚ)) (q : List ℚ) (k : Nat) :
    (faissSearch vecs q k).length = min k vecs.length := by
  simp [faissSearch, sortAsc_length, List.length_take, List.enum_length]

theorem faissSearch_nonneg {vecs : List (List ℚ)} {q : List ℚ} {k : Nat}
    {p : ℚ × Nat} (hp : p ∈ faissSearch vecs q k) : 0 ≤ p.1 := by
  unfold faissSearch at hp
  have h1 := List.Sublist.mem hp (List.take_sublist _ _)
  rw [sortAsc_mem] at h1
  obtain ⟨a, ha, rfl⟩ := List.mem_map.mp h1
  obtain ⟨i, d⟩ := a
  have h2 := List.mem_enum ha
  have hi : i < (vecs.map (sqDist q)).length := h2.1
  have h3 : d = (vecs.map (sqDist q))[i] := h2.2
  have h4 : (vecs.map (sqDist q))[i] ∈ vecs.map (sqDist q) :=
    List.getElem_mem hi
  rw [← h3] at h4
  obtain ⟨v, hv, hdv⟩ := List.mem_map.mp h4
  simpa [hdv] using sqDist_nonneg q v

theorem faissSearch_sorted (vecs : List (List ℚ)) (q : List ℚ) (k : Nat) :
    (faissSearch vecs q k).Pairwise (fun a b => a.1 ≤ b.1) :=
  List.Pairwise.sublist (List.take_sublist _ _) (sortAsc_sorted _)

/-- Claim C1: `search` returns at most `min(k, N)` hits (`N` the number
of stored vectors), each with similarity `1/(1+d)` in `(0, 1]`, ordered
by descending similarity (ascending L2 distance), and an empty index
yields the empty result without error. -/
theorem search_ranked (st : VectorStore) (q : List ℚ) (k : Nat) :
    (search st q k).length ≤ min k st.index.length
    ∧ (∀ r ∈ search st q k, 0 < r.2.1 ∧ r.2.1 ≤ 1)
    ∧ (search st q k).Pairwise (fun a b => b.2.1 ≤ a.2.1)
    ∧ (st.index.length = 0 → search st q k = []) := by
  by_cases h0 : st.index.length = 0
  · simp [search, h0]
  · have hsearch : search st q k
        = ((faissSearch st.index q (min k st.index.length)).filter
            (fun p => decide (p.2 < st.texts.length))).map
              (mkResult st.texts st.metadata) := by
      simp [search, h0, searchResults_eq_filter_map]
    refine ⟨?_, ?_, ?_, fun h => absurd h h0⟩
    · rw [hsearch, List.length_map]
      calc ((faissSearch st.index q (min k st.index.length)).filter
              (fun p => decide (p.2 < st.texts.length))).length
          ≤ (faissSearch st.index q (min k st.index.length)).length :=
            List.length_filter_le _ _
        _ = min (min k st.index.length) st.index.length :=
            faissSearch_length _ _ _
        _ ≤ min k st.index.length := by omega
    · intro r hr
      rw [hsearch] at hr
      obtain ⟨p, hp, rfl⟩ := List.mem_map.mp hr
      have hpL : p ∈ faissSearch st.index q (min k st.index.length) :=
        (List.mem_filter.mp hp).1
      have hd : 0 ≤ p.1 := faissSearch_nonneg hpL
      have h1 : (0:ℚ) < 1 + p.1 := by linarith
      constructor
      · exact div_pos one_pos h1
      · exact (div_le_one h1).mpr (by linarith)
    · rw [hsearch]
      rw [List.pairwise_map]
      have hfil : ((faissSearch st.index q (min k st.index.length)).filter
          (fun p => decide (p.2 < st.texts.length))).Pairwise
            (fun a b => a.1 ≤ b.1) :=
        List.Pairwise.filter _ (faissSearch_sorted _ _ _)
      refine hfil.imp_of_mem ?_
      intro a b ha hb hab
      have hda : 0 ≤ a.1 :=
        faissSearch_nonneg (List.mem_filter.mp ha).1
      show (mkResult st.texts st.metadata b).2.1
          ≤ (mkResult st.texts st.metadata a).2.1
      unfold mkResult
      exact one_div_le_one_div_of_le (by linarith) (by linarith)

/-- Claim C1 witness: a two-vector store yields an in-range similarity
for a concrete returned hit, and searching the empty initial store
returns the empty list. -/
theorem search_ranked_witness :
    ((0:ℚ) < 1 / (1 + 2) ∧ (1:ℚ) / (1 + 2) ≤ 1)
    ∧ search initStore [1, 1] 5 = [] := by
  constructor
  · have h := (search_ranked ⟨768, [[0, 0], [3, 4]], [['a'], ['b']], [[], []]⟩
      [1, 1] 5).2.1
    have hmem : ((['a'], (1:ℚ) / (1 + 2), ([] : Meta))
        : List Char × ℚ × Meta) ∈
          search ⟨768, [[0, 0], [3, 4]], [['a'], ['b']], [[], []]⟩ [1, 1] 5 := by
      norm_num [search, searchResults, faissSearch, sortAsc, insertAsc,
        sqDist, mkResult]
    exact h _ hmem
  · exact (search_ranked initStore [1, 1] 5).2.2.2 rfl

/-! ## Chunking loop: progress, termination, window coverage (C2, C8) -/

theorem gtOpt_lt {o : Option Nat} {m : Nat} (h : gtOpt o m = true) :
    m < o.getD 0 := by
  cases o with
  | none => simp [gtOpt] at h
  | some i => simpa [gtOpt] using h

theorem chunkEnd_lower (t : List Char) {cs : Nat} (start : Nat)
    (hcs : 1 ≤ cs) : start + cs / 2 + 1 ≤ chunkEnd t cs start := by
  simp only [chunkEnd]
  by_cases h0 : start + cs < t.length
  · rw [if_pos h0]
    by_cases h1 : gtOpt (rfindIn t '.' start (start + cs)) (start + cs / 2) = true
    · rw [if_pos h1]
      have := gtOpt_lt h1
      omega
    · rw [if_neg h1]
      by_cases h2 : gtOpt (rfindIn t '\n' start (start + cs)) (start + cs / 2) = true
      · rw [if_pos h2]
        have := gtOpt_lt h2
        omega
      · rw [if_neg h2]
        by_cases h3 : gtOpt (rfindIn t ' ' start (start + cs)) (start + cs / 2) = true
        · rw [if_pos h3]
          have := gtOpt_lt h3
          omega
        · rw [if_neg h3]
          omega
  · rw [if_neg h0]
    omega

theorem chunkLoop_fuel (t : List Char) (cs ov : Nat) (hcs : 1 ≤ cs)
    (hov : ov ≤ cs / 2) :
    ∀ f₁ f₂ s, t.length - s < f₁ → t.length - s < f₂ →
      chunkLoop t cs ov f₁ s = chunkLoop t cs ov f₂ s := by
  intro f₁
  induction f₁ with
  | zero => intro f₂ s h1 h2; omega
  | succ n ih =>
    intro f₂ s h1 h2
    cases f₂ with
    | zero => omega
    | succ m =>
      by_cases hs : s < t.length
      · have hE := chunkEnd_lower t s hcs
        simp only [chunkLoop, if_pos hs]
        rw [ih m (chunkEnd t cs s - ov) (by omega) (by omega)]
      · simp only [chunkLoop, if_neg hs]

theorem chunkSpans_nil (t : List Char) (cs ov f s : Nat)
    (hs : t.length ≤ s) : chunkSpans t cs ov f s = [] := by
  cases f with
  | zero => rfl
  | succ n => simp [chunkSpans, Nat.not_lt.mpr hs]

theorem pySlice_drop (t : List Char) (s e ov : Nat) :
    (pySlice t s e).drop ov = pySlice t (s + ov) e := by
  unfold pySlice
  rw [List.drop_take, List.drop_drop]
  congr 1
  omega

theorem pySlice_append_drop (t : List Char) (a e : Nat) (hae : a ≤ e) :
    pySlice t a e ++ t.drop e = t.drop a := by
  unfold pySlice
  have h1 : t.drop e = (t.drop a).drop (e - a) := by
    rw [List.drop_drop]
    congr 1
    omega
  rw [h1, List.take_append_drop]

theorem pySlice_of_ge (t : List Char) (a e : Nat) (he : t.length ≤ e) :
    pySlice t a e = t.drop a := by
  unfold pySlice
  apply List.take_of_length_le
  rw [List.length_drop]
  omega

theorem spans_cover (t : List Char) (cs ov : Nat) (hcs : 1 ≤ cs)
    (hov : ov ≤ cs / 2) :
    ∀ f s, t.length - s < f → s < t.length →
      ((chunkSpans t cs ov f s).map (fun p => pySlice t (p.1 + ov) p.2)).flatten
        = t.drop (s + ov) := by
  intro f
  induction f with
  | zero => intro s h1 _; omega
  | succ n ih =>
    intro s h1 hs
    have hE := chunkEnd_lower t s hcs
    simp only [chunkSpans, if_pos hs, List.map_cons, List.flatten_cons]
    by_cases hend : chunkEnd t cs s - ov < t.length
    · rw [ih (chunkEnd t cs s - ov) (by omega) hend]
      rw [Nat.sub_add_cancel (by omega : ov ≤ chunkEnd t cs s)]
      exact pySlice_append_drop t (s + ov) (chunkEnd t cs s) (by omega)
    · rw [chunkSpans_nil t cs ov n _ (by omega)]
      simp only [List.map_nil, List.flatten_nil, List.append_nil]
      exact pySlice_of_ge t (s + ov) _ (by omega)

theorem chunkLoop_eq_spans (t : List Char) (cs ov : Nat) :
    ∀ f s, chunkLoop t cs ov f s
      = ((chunkSpans t cs ov f s).map
          (fun p => pstrip (pySlice t p.1 p.2))).filter
            (fun c => !c.isEmpty) := by
  intro f
  induction f with
  | zero => intro s; rfl
  | succ n ih =>
    intro s
    by_cases hs : s < t.length
    · simp only [chunkLoop, chunkSpans, if_pos hs, List.map_cons,
        List.filter_cons]
      rw [ih]
      by_cases hc : (pstrip (pySlice t s (chunkEnd t cs s))).isEmpty = true
      · simp [hc]
      · simp [hc]
    · simp only [chunkLoop, chunkSpans, if_neg hs]
      rfl

theorem chunkLoop_mem_ne_nil (t : List Char) (cs ov f s : Nat)
    (c : List Char) (hc : c ∈ chunkLoop t cs ov f s) : c ≠ [] := by
  rw [chunkLoop_eq_spans] at hc
  have h2 := (List.mem_filter.mp hc).2
  cases c with
  | nil => simp at h2
  | cons a l => exact List.cons_ne_nil a l

/-- Claim C8: with the default parameters `chunk_size = 1000`,
`overlap = 200` the chunking loop terminates on every input: its result
is independent of any fuel beyond the text length (each iteration
advances `start = end - overlap` by at least `chunk_size/2 + 1 - overlap`
positions), and the loop exits exactly when `start` reaches or passes the
text length. -/
theorem chunk_defaults_terminate (t : List Char) (f : Nat)
    (hf : (clean_text t).length < f) :
    chunkLoop (clean_text t) 1000 200 f 0
        = chunkLoop (clean_text t) 1000 200 ((clean_text t).length + 1) 0
    ∧ (∀ s, (clean_text t).length ≤ s →
        chunkLoop (clean_text t) 1000 200 f s = []) := by
  constructor
  · exact chunkLoop_fuel (clean_text t) 1000 200 (by omega) (by omega)
      f ((clean_text t).length + 1) 0 (by omega) (by omega)
  · intro s hs
    cases f with
    | zero => rfl
    | succ n => simp [chunkLoop, Nat.not_lt.mpr hs]

/-- Claim C8 witness. -/
theorem chunk_defaults_terminate_witness :
    chunkLoop (clean_text ['a', 'b', 'c']) 1000 200 100 0
        = chunkLoop (clean_text ['a', 'b', 'c']) 1000 200
            ((clean_text ['a', 'b', 'c']).length + 1) 0
    ∧ chunkLoop (clean_text ['a', 'b', 'c']) 1000 200 100 5 = [] := by
  have h := chunk_defaults_terminate ['a', 'b', 'c'] 100 (by decide)
  exact ⟨h.1, h.2 5 (by decide)⟩

/-- Claim C2 (corrected part): the returned chunks are stripped, so
concatenating them with `overlap` characters dropped from each non-first
chunk does not reconstruct the normalized text: with
`chunk_size = 4`, `overlap = 2` on `"ab cdef"` the character `'d'` is
lost (`"ab cef" ≠ "ab cdef"`). -/
theorem chunk_strip_gap_cex :
    (chunk_text "ab cdef".toList 4 2).headD []
        ++ (((chunk_text "ab cdef".toList 4 2).tail).map
            (fun c => List.drop 2 c)).flatten
      ≠ clean_text "ab cdef".toList := by decide

/-- Claim C2 (amended): every returned chunk is non-empty, and coverage
holds at the level of the pre-strip windows: the returned chunks are the
non-empty strips of the loop's windows, the first window starts at 0, and
the first window's slice concatenated with every later window's slice
minus its first `overlap` characters reconstructs the whole normalized
text with no gaps (for `1 ≤ chunk_size` and `overlap ≤ chunk_size / 2`,
the regime of the defaults). -/
theorem chunk_windows_cover (t : List Char) (cs ov : Nat) (hcs : 1 ≤ cs)
    (hov : ov ≤ cs / 2) (hlong : cs < (clean_text t).length) :
    chunk_text t cs ov
      = ((chunkSpans (clean_text t) cs ov ((clean_text t).length + 1) 0).map
          (fun p => pstrip (pySlice (clean_text t) p.1 p.2))).filter
            (fun c => !c.isEmpty)
    ∧ (∀ c ∈ chunk_text t cs ov, c ≠ [])
    ∧ ∃ e₀ rest,
        chunkSpans (clean_text t) cs ov ((clean_text t).length + 1) 0
            = (0, e₀) :: rest
        ∧ (clean_text t).take e₀
            ++ (rest.map (fun p => (pySlice (clean_text t) p.1 p.2).drop ov)).flatten
          = clean_text t := by
  have htne : t.isEmpty = false := by
    cases t with
    | nil => simp [clean_text] at hlong
    | cons a l => rfl
  have hchunk : chunk_text t cs ov
      = chunkLoop (clean_text t) cs ov ((clean_text t).length + 1) 0 := by
    simp [chunk_text, htne, Nat.not_le.mpr hlong]
  refine ⟨by rw [hchunk, chunkLoop_eq_spans], ?_, ?_⟩
  · intro c hc
    rw [hchunk] at hc
    exact chunkLoop_mem_ne_nil _ _ _ _ _ c hc
  · have hs0 : (0:Nat) < (clean_text t).length := by omega
    have hE := chunkEnd_lower (clean_text t) 0 hcs
    refine ⟨chunkEnd (clean_text t) cs 0,
      chunkSpans (clean_text t) cs ov (clean_text t).length
        (chunkEnd (clean_text t) cs 0 - ov), ?_, ?_⟩
    · simp only [chunkSpans, if_pos hs0]
    · by_cases hend : chunkEnd (clean_text t) cs 0 - ov < (clean_text t).length
      · have hcov := spans_cover (clean_text t) cs ov hcs hov
          (clean_text t).length (chunkEnd (clean_text t) cs 0 - ov)
          (by omega) hend
        simp only [pySlice_drop]
        rw [hcov, Nat.sub_add_cancel (by omega : ov ≤ chunkEnd (clean_text t) cs 0)]
        exact List.take_append_drop _ _
      · rw [chunkSpans_nil _ _ _ _ _ (by omega)]
        simp only [List.map_nil, List.flatten_nil, List.append_nil]
        exact List.take_of_length_le (by omega)

/-- Claim C2 witness: the amended coverage at `"ab cdef"` with
`chunk_size = 4`, `overlap = 2`. -/
theorem chunk_windows_cover_witness :
    chunk_text "ab cdef".toList 4 2
      = ((chunkSpans (clean_text "ab cdef".toList) 4 2
          ((clean_text "ab cdef".toList).length + 1) 0).map
            (fun p => pstrip (pySlice (clean_text "ab cdef".toList) p.1 p.2))).filter
              (fun c => !c.isEmpty)
    ∧ (∀ c ∈ chunk_text "ab cdef".toList 4 2, c ≠ [])
    ∧ ∃ e₀ rest,
        chunkSpans (clean_text "ab cdef".toList) 4 2
            ((clean_text "ab cdef".toList).length + 1) 0
          = (0, e₀) :: rest
        ∧ (clean_text "ab cdef".toList).take e₀
            ++ (rest.map
                (fun p => (pySlice (clean_text "ab cdef".toList) p.1 p.2).drop 2)).flatten
          = clean_text "ab cdef".toList :=
  chunk_windows_cover "ab cdef".toList 4 2 (by decide) (by decide) (by decide)

end DocChatbot
